import Mathlib

/-!
Shallow embedding of the chainHead "unstable backend"
(`subxt/src/backend/unstable/mod.rs`) and proofs about its
event-processing logic: operation correlation (`block_body`, `call`),
runtime-version streaming (`stream_runtime_version`), the three
header-stream projections, and the transaction-status adapter
(`submit_transaction`).

Hashes are an arbitrary type `H` with decidable equality; pinned block
references (the `follow_stream_unpin::BlockRef` values carried inside
follow events) are an arbitrary type `R` together with a projection
`hashOf : R → H` standing for `BlockRef::hash()`.
-/

namespace ChainHead

/-- Modelled from the spec (§6): raw bytes on the wire.  The `Bytes`
newtype of `rpc_methods.rs` is not among the sources; `mod.rs` unwraps
it with `.0`, here `.val`. -/
structure Bytes where
  val : List Nat
deriving DecidableEq, Repr

/-- Runtime spec payload: `mod.rs` reads `runtime_details.spec.spec_version`
and `runtime_details.spec.transaction_version`. -/
structure RuntimeSpec where
  spec_version : Nat
  transaction_version : Nat
deriving DecidableEq, Repr

/-- Payload of a `RuntimeEvent::Valid`. -/
structure RuntimeVersionEvent where
  spec : RuntimeSpec
deriving DecidableEq, Repr

/-- Payload of a `RuntimeEvent::Invalid` (`err.error` in `mod.rs`). -/
structure ErrorEvent where
  error : String
deriving DecidableEq, Repr

/-- Modelled from the spec: `rpc_methods::RuntimeEvent` (the file
`rpc_methods.rs` is not among the sources); the two variants and the
fields read by `mod.rs` lines 384-394. -/
inductive RuntimeEvent where
  | invalid (err : ErrorEvent)
  | valid (ev : RuntimeVersionEvent)
deriving DecidableEq, Repr

/-- Output of `stream_runtime_version` items (`backend::RuntimeVersion`). -/
structure RuntimeVersion where
  spec_version : Nat
  transaction_version : Nat
deriving DecidableEq, Repr

/-- Payload of `FollowEvent::Initialized` as used by `mod.rs`
(`finalized_block_hash`, `finalized_block_runtime`). -/
structure InitializedEv (R : Type) where
  finalized_block_hash : R
  finalized_block_runtime : Option RuntimeEvent
deriving DecidableEq, Repr

/-- Payload of `FollowEvent::NewBlock` as used by `mod.rs`
(`block_hash`, `parent_block_hash`, `new_runtime`). -/
structure NewBlockEv (R : Type) where
  block_hash : R
  parent_block_hash : R
  new_runtime : Option RuntimeEvent
deriving DecidableEq, Repr

/-- Payload of `FollowEvent::BestBlockChanged` (`best_block_hash`). -/
structure BestBlockChangedEv (R : Type) where
  best_block_hash : R
deriving DecidableEq, Repr

/-- Payload of `FollowEvent::Finalized`
(`finalized_block_hashes`, `pruned_block_hashes`). -/
structure FinalizedEv (R : Type) where
  finalized_block_hashes : List R
  pruned_block_hashes : List R
deriving DecidableEq, Repr

/-- Payload of `FollowEvent::OperationBodyDone`
(`operation_id`, `value`). -/
structure OperationBodyDoneEv where
  operation_id : String
  value : List Bytes
deriving DecidableEq, Repr

/-- Payload of `FollowEvent::OperationCallDone`
(`operation_id`, `output`). -/
structure OperationCallDoneEv where
  operation_id : String
  output : Bytes
deriving DecidableEq, Repr

/-- Payload of `FollowEvent::OperationError` (`operation_id`, `error`). -/
structure OperationErrorEv where
  operation_id : String
  error : String
deriving DecidableEq, Repr

/-- Modelled from the spec (§3): the closed `FollowEvent` variant set of
`rpc_methods.rs` (not among the sources), generic over the block-reference
type `R` exactly as `FollowEvent<follow_stream_unpin::BlockRef<T::Hash>>`
in `mod.rs`.  `operationStorageItems` carries no payload here because no
claim inspects it. -/
inductive FollowEvent (R : Type) where
  | initEv (ev : InitializedEv R)
  | newBlock (ev : NewBlockEv R)
  | bestBlockChanged (ev : BestBlockChangedEv R)
  | finalizedEv (ev : FinalizedEv R)
  | operationBodyDone (ev : OperationBodyDoneEv)
  | operationCallDone (ev : OperationCallDoneEv)
  | operationStorageItems
  | operationError (ev : OperationErrorEv)
  | stop
deriving DecidableEq, Repr

/-- Modelled from the spec (§7): the RPC error kinds `mod.rs` constructs
(`RpcError::request_rejected`, `RpcError::SubscriptionDropped`). -/
inductive RpcError where
  | requestRejected (reason : String)
  | subscriptionDropped
deriving DecidableEq, Repr

/-- Modelled from the spec (§7): the error type of the backend; only the
constructors `mod.rs` produces (`Error::Rpc`, `Error::Other`). -/
inductive Err where
  | rpc (e : RpcError)
  | other (s : String)
deriving DecidableEq, Repr

deriving instance DecidableEq for Except

/-- Modelled from the spec: `rpc_methods::MethodResponse`
(`LimitReached` or `Started { operation_id, .. }`), as matched in
`mod.rs` lines 295-300 and 597-602. -/
inductive MethodResponse where
  | limitReached
  | started (operation_id : String)
deriving DecidableEq, Repr

/-!
## `block_body` and `call` (operation correlation)

`mod.rs` lines 289-315 and 582-619.  Both first inspect the node's
`MethodResponse`; `LimitReached` returns a `request_rejected` error
immediately.  Otherwise they scan the follow-event feed for the first
`OperationBodyDone` / `OperationCallDone` whose `operation_id` matches
the id from `Started`, ignoring everything else.  The feed is embedded
as the finite list of events observed before the subscription ends:
`block_body` ends with `Ok(None)` if the feed ends without a match,
`call` with `Err(SubscriptionDropped)`.
-/

/-- The body extracted by `block_body`'s `filter_map` closure from one
follow event (`mod.rs` lines 303-312): a matching `OperationBodyDone`
yields its extrinsics. -/
def bodyDoneMatch (operation_id : String) : FollowEvent R → Option (List (List Nat))
  | .operationBodyDone body =>
      if body.operation_id ≠ operation_id then none
      else some (body.value.map Bytes.val)
  | _ => none

/-- `UnstableBackend::block_body` (`mod.rs` lines 289-315), given the
node's immediate response and the follow events subsequently observed. -/
def block_body (status : MethodResponse) (events : List (FollowEvent R)) :
    Except Err (Option (List (List Nat))) :=
  match status with
  | .limitReached => .error (.rpc (.requestRejected "limit reached"))
  | .started operation_id =>
      .ok (events.filterMap (bodyDoneMatch operation_id)).head?

/-- The output extracted by `call`'s `filter_map` closure from one follow
event (`mod.rs` lines 605-613): a matching `OperationCallDone` yields its
output bytes. -/
def callDoneMatch (operation_id : String) : FollowEvent R → Option (List Nat)
  | .operationCallDone body =>
      if body.operation_id ≠ operation_id then none
      else some body.output.val
  | _ => none

/-- `UnstableBackend::call` (`mod.rs` lines 582-619), given the node's
immediate response and the follow events subsequently observed. -/
def call (status : MethodResponse) (events : List (FollowEvent R)) :
    Except Err (List Nat) :=
  match status with
  | .limitReached => .error (.rpc (.requestRejected "limit reached"))
  | .started operation_id =>
      match (events.filterMap (callDoneMatch operation_id)).head? with
      | some out => .ok out
      | none => .error (.rpc .subscriptionDropped)

/-!
## Association-list model of `std::collections::HashMap`

`mod.rs` uses `HashMap` only through `insert` (overwriting), `get`,
`remove` and `clear`; an association list where insertion erases the old
key first is observationally identical for those operations.
-/

/-- All entries for key `k` removed. -/
def alistErase {H A : Type} [DecidableEq H] (m : List (H × A)) (k : H) :
    List (H × A) :=
  match m with
  | [] => []
  | (k', v) :: rest =>
      if k' = k then alistErase rest k else (k', v) :: alistErase rest k

/-- `HashMap::insert` (overwrites any previous value for the key). -/
def alistInsert {H A : Type} [DecidableEq H] (m : List (H × A)) (k : H)
    (v : A) : List (H × A) :=
  (k, v) :: alistErase m k

/-- `HashMap::get`. -/
def alistLookup {H A : Type} [DecidableEq H] (m : List (H × A)) (k : H) :
    Option A :=
  match m with
  | [] => none
  | (k', v) :: rest => if k' = k then some v else alistLookup rest k

/-!
## `stream_runtime_version`

`mod.rs` lines 345-398: a stateful scan over the follow-event feed.  The
state is the `runtimes` map from block hash to the `RuntimeEvent`
announced in that block's `NewBlock` event.
-/

section RuntimeStream

variable {H R : Type} [DecidableEq H]

/-- One step of the `filter_map` closure of `stream_runtime_version`
(`mod.rs` lines 353-377): new `runtimes` map and the optional
`RuntimeEvent` selected for output. -/
def runtimeUpdate (hashOf : R → H) (st : List (H × RuntimeEvent)) :
    FollowEvent R → List (H × RuntimeEvent) × Option RuntimeEvent
  | .initEv ev => ([], ev.finalized_block_runtime)
  | .newBlock ev =>
      match ev.new_runtime with
      | some runtime => (alistInsert st (hashOf ev.block_hash) runtime, none)
      | none => (st, none)
  | .finalizedEv ev =>
      let next_runtime :=
        (ev.finalized_block_hashes.reverse.filterMap
          (fun h => alistLookup st (hashOf h))).head?
      ([], next_runtime)
  | _ => (st, none)

/-- Mapping a selected `RuntimeEvent` to the emitted stream item
(`mod.rs` lines 379-395). -/
def runtimeItem : RuntimeEvent → Except Err RuntimeVersion
  | .invalid err => .error (.other err.error)
  | .valid ev =>
      .ok { spec_version := ev.spec.spec_version
            transaction_version := ev.spec.transaction_version }

/-- The `runtimes` map after scanning a list of follow events from a
given map. -/
def runtimesStateFrom (hashOf : R → H) (st : List (H × RuntimeEvent))
    (evs : List (FollowEvent R)) : List (H × RuntimeEvent) :=
  evs.foldl (fun st ev => (runtimeUpdate hashOf st ev).1) st

/-- The `runtimes` map after scanning a list of follow events. -/
def runtimesState (hashOf : R → H) (evs : List (FollowEvent R)) :
    List (H × RuntimeEvent) :=
  runtimesStateFrom hashOf [] evs

/-- The items emitted by the `stream_runtime_version` scan on a list of
follow events, starting from a given `runtimes` map. -/
def runtimeItemsFrom (hashOf : R → H) (st : List (H × RuntimeEvent)) :
    List (FollowEvent R) → List (Except Err RuntimeVersion)
  | [] => []
  | ev :: rest =>
      ((runtimeUpdate hashOf st ev).2.map runtimeItem).toList
        ++ runtimeItemsFrom hashOf (runtimeUpdate hashOf st ev).1 rest

/-- The full item sequence emitted by `stream_runtime_version` on a
follow-event sequence. -/
def stream_runtime_version (hashOf : R → H) (evs : List (FollowEvent R)) :
    List (Except Err RuntimeVersion) :=
  runtimeItemsFrom hashOf [] evs

/-- The latest `some` produced by `g` over a list (later elements take
precedence).  Used to phrase "the last hash in order that has a recorded
runtime" and "the latest `NewBlock` record". -/
def lastSome {A B : Type} (g : A → Option B) : List A → Option B
  | [] => none
  | a :: rest =>
      match lastSome g rest with
      | some b => some b
      | none => g a

/-- Events on which the claim says the recorded runtimes are cleared. -/
def isRuntimeClearEvent : FollowEvent R → Bool
  | .initEv _ => true
  | .finalizedEv _ => true
  | _ => false

/-- The suffix of the event sequence after the most recent clearing event
(`Initialized` or `Finalized`). -/
def sinceLastClear (evs : List (FollowEvent R)) : List (FollowEvent R) :=
  evs.foldl (fun acc ev => if isRuntimeClearEvent ev then [] else acc ++ [ev]) []

/-- The runtime carried for hash `h` by one follow event: only a
`NewBlock` for `h` with a `new_runtime` payload carries one. -/
def newRuntimeFor (hashOf : R → H) (h : H) : FollowEvent R → Option RuntimeEvent
  | .newBlock nb => if hashOf nb.block_hash = h then nb.new_runtime else none
  | _ => none

/-- Claim-side reading of the recorded runtimes: the runtime for `h` is
the one carried by the latest `NewBlock` for `h` since the last clearing
event. -/
def recordedRuntime (hashOf : R → H) (evs : List (FollowEvent R)) (h : H) :
    Option RuntimeEvent :=
  lastSome (newRuntimeFor hashOf h) (sinceLastClear evs)

/-- Claim-side reading of the `Finalized` emission: the runtime recorded
for the last hash (in `finalized_block_hashes` order) that has one. -/
def latestRecordedAtFrontier (hashOf : R → H) (st : List (H × RuntimeEvent))
    (hs : List R) : Option RuntimeEvent :=
  lastSome (fun r => alistLookup st (hashOf r)) hs

end RuntimeStream

/-!
## The three header-stream projections

`stream_headers` (`mod.rs` lines 136-175) flat-maps a selector `f` over
the follow-event feed and fetches a header for every selected block ref;
`stream_all_block_headers`, `stream_best_block_headers` and
`stream_finalized_block_headers` (lines 400-433) instantiate `f`.
-/

section HeaderStreams

variable {H R Hd : Type}

/-- The selector of `stream_all_block_headers` (`mod.rs` lines 403-407). -/
def allBlocksSelector : FollowEvent R → Option R
  | .initEv ev => some ev.finalized_block_hash
  | .newBlock ev => some ev.block_hash
  | _ => none

/-- The selector of `stream_best_block_headers` (`mod.rs` lines 414-418). -/
def bestBlocksSelector : FollowEvent R → Option R
  | .initEv ev => some ev.finalized_block_hash
  | .bestBlockChanged ev => some ev.best_block_hash
  | _ => none

/-- The selector of `stream_finalized_block_headers`
(`mod.rs` lines 425-431). -/
def finalizedBlocksSelector : FollowEvent R → List R
  | .initEv ev => [ev.finalized_block_hash]
  | .finalizedEv ev => ev.finalized_block_hashes
  | _ => []

/-- The block refs for which `stream_headers` issues a
`chainHead_header` fetch: the flat-map of the selector over the feed
(`mod.rs` lines 148-154). -/
def headersRequested (f : FollowEvent R → List R)
    (evs : List (FollowEvent R)) : List R :=
  evs.flatMap f

/-- Fetches issued by `stream_all_block_headers` (selector results are
`Option`s, used as iterators of zero or one element). -/
def allHeadersRequested (evs : List (FollowEvent R)) : List R :=
  headersRequested (fun ev => (allBlocksSelector ev).toList) evs

/-- Fetches issued by `stream_best_block_headers`. -/
def bestHeadersRequested (evs : List (FollowEvent R)) : List R :=
  headersRequested (fun ev => (bestBlocksSelector ev).toList) evs

/-- Fetches issued by `stream_finalized_block_headers`. -/
def finalizedHeadersRequested (evs : List (FollowEvent R)) : List R :=
  headersRequested finalizedBlocksSelector evs

/-- Spec-side projection for the "all blocks" stream: the `Initialized`
finalized hash and each `NewBlock` hash, in event order. -/
def specAllHeaderHashes : List (FollowEvent R) → List R
  | [] => []
  | .initEv ev :: rest => ev.finalized_block_hash :: specAllHeaderHashes rest
  | .newBlock ev :: rest => ev.block_hash :: specAllHeaderHashes rest
  | _ :: rest => specAllHeaderHashes rest

/-- Spec-side projection for the "best blocks" stream: the `Initialized`
finalized hash and each `BestBlockChanged` hash, in event order. -/
def specBestHeaderHashes : List (FollowEvent R) → List R
  | [] => []
  | .initEv ev :: rest => ev.finalized_block_hash :: specBestHeaderHashes rest
  | .bestBlockChanged ev :: rest => ev.best_block_hash :: specBestHeaderHashes rest
  | _ :: rest => specBestHeaderHashes rest

/-- Spec-side projection for the "finalized blocks" stream: the
`Initialized` finalized hash and every hash of each `Finalized` event's
`finalized_block_hashes`, in event order. -/
def specFinalizedHeaderHashes : List (FollowEvent R) → List R
  | [] => []
  | .initEv ev :: rest => ev.finalized_block_hash :: specFinalizedHeaderHashes rest
  | .finalizedEv ev :: rest => ev.finalized_block_hashes ++ specFinalizedHeaderHashes rest
  | _ :: rest => specFinalizedHeaderHashes rest

end HeaderStreams

/-!
## `submit_transaction`

`mod.rs` lines 435-580: a poll loop over two feeds, the follow-event
subscription (filtered to `NewBlock`/`Finalized`, the `SeenBlock`s) and
the node's transaction-status feed.  The loop drains every available
follow event before touching the transaction feed, so arrivals are
modelled as one interleaved list of inputs processed in order; once the
node reports `Finalized` the transaction feed is never polled again, so
later transaction-feed inputs have no effect.
-/

/-- `backend::BlockRef` as constructed by `mod.rs`: either un-pinned from
a bare hash (`BlockRef::from_hash`) or wrapping a pinned
`follow_stream_unpin::BlockRef` (`BlockRef::new(b.hash(), b)`). -/
inductive BackendBlockRef (H R : Type) where
  | fromHash (hash : H)
  | pinned (hash : H) (r : R)
deriving DecidableEq, Repr

/-- Modelled from the spec (§4.5, §6): the caller-facing
`backend::TransactionStatus` (its defining module is not among the
sources).  It includes an `errorTx` variant as the "corresponding
failure" for a node-side `Error`; `mod.rs` as written never constructs
it. -/
inductive TransactionStatus (H R : Type) where
  | validated
  | broadcasted (num_peers : Nat)
  | noLongerInBestBlock
  | inBestBlock (hash : BackendBlockRef H R)
  | inFinalizedBlock (hash : BackendBlockRef H R)
  | dropped (message : String)
  | invalidTx (message : String)
  | errorTx (message : String)
deriving DecidableEq, Repr

/-- Block details carried by node transaction statuses (`block.hash`). -/
structure TxBlockDetails (H : Type) where
  hash : H
deriving DecidableEq, Repr

/-- Modelled from the spec (§6): the node's transaction-status variants
(`rpc_methods::TransactionStatus`), with the fields `mod.rs` matches on
(lines 537-574). -/
inductive RpcTransactionStatus (H : Type) where
  | validated
  | broadcasted (num_peers : Nat)
  | bestChainBlockIncluded (block : Option (TxBlockDetails H))
  | finalizedTx (block : TxBlockDetails H)
  | dropped (isBroadcasted : Bool) (error : String)
  | errorStatus (error : String)
  | invalidStatus (error : String)
deriving DecidableEq, Repr

/-- `SeenBlockMarker` (`mod.rs` lines 444-447). -/
inductive SeenBlockMarker where
  | new
  | finalizedMarker
deriving DecidableEq, Repr

/-- One arrival while `submit_transaction`'s stream is being polled:
an event on the follow feed, an element of the transaction-status feed
(a status, an error, or its end). -/
inductive TxIn (H R : Type) where
  | follow (ev : FollowEvent R)
  | status (s : RpcTransactionStatus H)
  | statusErr (e : Err)
  | txEnd
deriving DecidableEq, Repr

/-- The local state of the `poll_fn` closure (`mod.rs` lines 469-475):
`seen_blocks`, `done` and `finalized_hash`. -/
structure TxState (H R : Type) where
  seen_blocks : List (H × SeenBlockMarker × R)
  done : Bool
  finalized_hash : Option H
deriving DecidableEq, Repr

/-- Initial state of the loop. -/
def initTxState {H R : Type} : TxState H R :=
  { seen_blocks := [], done := false, finalized_hash := none }

section SubmitTx

variable {H R : Type} [DecidableEq H]

/-- Recording a follow event into `seen_blocks` (`mod.rs` lines 455-461
and 486-504): a `NewBlock` is recorded only while no finalized hash is
awaited, a `Finalized` records each of its hashes with the `Finalized`
marker. -/
def txSeenBlocks (hashOf : R → H) (st : TxState H R) :
    FollowEvent R → TxState H R
  | .newBlock nb =>
      if st.finalized_hash = none then
        { st with
          seen_blocks :=
            alistInsert st.seen_blocks (hashOf nb.block_hash)
              (SeenBlockMarker.new, nb.block_hash) }
      else st
  | .finalizedEv f =>
      { st with
        seen_blocks :=
          f.finalized_block_hashes.foldl
            (fun m r => alistInsert m (hashOf r) (SeenBlockMarker.finalizedMarker, r))
            st.seen_blocks }
  | _ => st

/-- The wait-for-finalized check (`mod.rs` lines 508-523): with a
finalized hash recorded, emit `InFinalizedBlock` if `seen_blocks` holds a
`Finalized`-marked entry for it, otherwise clear `seen_blocks` and keep
waiting. -/
def txCheckFinalized (hashOf : R → H) (st : TxState H R) :
    TxState H R × List (Except Err (TransactionStatus H R)) :=
  match st.finalized_hash with
  | none => (st, [])
  | some h =>
      match alistLookup st.seen_blocks h with
      | some (SeenBlockMarker.finalizedMarker, block_ref) =>
          ({ st with seen_blocks := alistErase st.seen_blocks h, done := true },
           [.ok (.inFinalizedBlock (.pinned (hashOf block_ref) block_ref))])
      | _ => ({ st with seen_blocks := [] }, [])

/-- The `BlockRef` reported for a `BestChainBlockIncluded` hash
(`mod.rs` lines 552-555): the pinned ref if the hash is in
`seen_blocks`, else an un-pinned ref from the bare hash. -/
def bestBlockRef (hashOf : R → H) (st : TxState H R) (h : H) :
    BackendBlockRef H R :=
  match alistLookup st.seen_blocks h with
  | some (_, block_ref) => .pinned (hashOf block_ref) block_ref
  | none => .fromHash h

/-- One step of the poll loop on one arrival, returning the new state and
the items emitted while processing it (`mod.rs` lines 478-577). -/
def txStep (hashOf : R → H) (st : TxState H R) :
    TxIn H R → TxState H R × List (Except Err (TransactionStatus H R))
  | i =>
    if st.done then (st, [])
    else
      match i with
      | .follow ev => txCheckFinalized hashOf (txSeenBlocks hashOf st ev)
      | .status s =>
          match st.finalized_hash with
          | some _ => (st, [])
          | none =>
              match s with
              | .finalizedTx block =>
                  txCheckFinalized hashOf { st with finalized_hash := some block.hash }
              | .bestChainBlockIncluded (some block) =>
                  (st, [.ok (.inBestBlock (bestBlockRef hashOf st block.hash))])
              | .bestChainBlockIncluded none => (st, [.ok .noLongerInBestBlock])
              | .broadcasted n => (st, [.ok (.broadcasted n)])
              | .dropped _ e => (st, [.ok (.dropped e)])
              | .errorStatus e => (st, [.ok (.dropped e)])
              | .invalidStatus e => (st, [.ok (.invalidTx e)])
              | .validated => (st, [.ok .validated])
      | .statusErr e =>
          match st.finalized_hash with
          | some _ => (st, [])
          | none => (st, [.error e])
      | .txEnd =>
          match st.finalized_hash with
          | some _ => (st, [])
          | none => ({ st with done := true }, [])

/-- The state after processing a list of arrivals. -/
def txRunState (hashOf : R → H) (st : TxState H R) (ins : List (TxIn H R)) :
    TxState H R :=
  ins.foldl (fun st i => (txStep hashOf st i).1) st

/-- The items emitted while processing a list of arrivals from a state. -/
def txOutputsFrom (hashOf : R → H) (st : TxState H R) :
    List (TxIn H R) → List (Except Err (TransactionStatus H R))
  | [] => []
  | i :: rest =>
      (txStep hashOf st i).2 ++ txOutputsFrom hashOf (txStep hashOf st i).1 rest

/-- The item sequence produced by the stream of `submit_transaction` on
an interleaved arrival sequence. -/
def submit_transaction (hashOf : R → H) (ins : List (TxIn H R)) :
    List (Except Err (TransactionStatus H R)) :=
  txOutputsFrom hashOf initTxState ins

/-- One arrival names a hash on the follow-event feed: it is a
`NewBlock` for it, or a `Finalized` listing it among its
`finalized_block_hashes`. -/
def seenEventMatch (hashOf : R → H) : TxIn H R → H → Prop
  | .follow (.newBlock nb), h => hashOf nb.block_hash = h
  | .follow (.finalizedEv f), h => ∃ r ∈ f.finalized_block_hashes, hashOf r = h
  | _, _ => False

/-- A hash has been seen on the follow-event feed, via a `NewBlock` or a
`Finalized` event, among a list of arrivals. -/
def seenOnFeed (hashOf : R → H) (ins : List (TxIn H R)) (h : H) : Prop :=
  ∃ i ∈ ins, seenEventMatch hashOf i h

/-- Invariant of the `seen_blocks` map: every entry's key is the hash of
its stored block ref, and every `Finalized`-marked entry's ref was taken
from the `finalized_block_hashes` of some `Finalized` follow event among
the arrivals processed so far. -/
def SeenBlocksInv (hashOf : R → H) (ins : List (TxIn H R))
    (sb : List (H × SeenBlockMarker × R)) : Prop :=
  ∀ k m r, (k, (m, r)) ∈ sb → k = hashOf r ∧
    (m = SeenBlockMarker.finalizedMarker →
      ∃ f, TxIn.follow (H := H) (.finalizedEv f) ∈ ins ∧
        r ∈ f.finalized_block_hashes)

/-- Invariant of `finalized_hash`: when set, some `Finalized`
transaction status among the arrivals processed so far named it. -/
def FinalizedHashInv (ins : List (TxIn H R)) (fh : Option H) : Prop :=
  ∀ h, fh = some h →
    ∃ b, TxIn.status (R := R) (.finalizedTx b) ∈ ins ∧ b.hash = h

end SubmitTx

/-!
## `UnstableBackendBuilder` and the age-eviction bound
-/

/-- `UnstableBackendBuilder` (`mod.rs` lines 43-46), keeping the one
field relevant to block lifetime. -/
structure UnstableBackendBuilder where
  max_block_life : Nat
deriving DecidableEq, Repr

/-- `usize::MAX` on a 64-bit platform. -/
def usizeMax : Nat := 2 ^ 64 - 1

/-- `UnstableBackendBuilder::new` (`mod.rs` lines 56-61). -/
def UnstableBackendBuilder.new : UnstableBackendBuilder :=
  { max_block_life := usizeMax }

/-- `UnstableBackendBuilder::max_block_life` (`mod.rs` lines 70-73),
the setter. -/
def UnstableBackendBuilder.withMaxBlockLife (b : UnstableBackendBuilder)
    (n : Nat) : UnstableBackendBuilder :=
  { b with max_block_life := n }

/-- The age of a block: the difference between the current finalized
block number and the block's number (`mod.rs` lines 63-64). -/
def blockAge (finalized_number block_number : Nat) : Nat :=
  finalized_number - block_number

/-- Modelled from the spec: the age-eviction rule of
`follow_stream_unpin.rs`, which is not among the sources.  Spec §4.2:
"Entries whose age exceeds the configured `max_block_life` are
evicted". -/
def evictedForAge (max_block_life age : Nat) : Bool :=
  max_block_life < age

/-!
# Theorems
-/

/-- Helper for C9: the "all blocks" fetch projection. -/
theorem allHeadersRequested_eq_spec {R : Type} (evs : List (FollowEvent R)) :
    allHeadersRequested evs = specAllHeaderHashes evs := by
  induction evs with
  | nil => rfl
  | cons ev rest ih =>
      have step : allHeadersRequested (ev :: rest)
          = (allBlocksSelector ev).toList ++ allHeadersRequested rest := rfl
      rw [step, ih]
      cases ev <;> rfl

/-- Helper for C9: the "best blocks" fetch projection. -/
theorem bestHeadersRequested_eq_spec {R : Type} (evs : List (FollowEvent R)) :
    bestHeadersRequested evs = specBestHeaderHashes evs := by
  induction evs with
  | nil => rfl
  | cons ev rest ih =>
      have step : bestHeadersRequested (ev :: rest)
          = (bestBlocksSelector ev).toList ++ bestHeadersRequested rest := rfl
      rw [step, ih]
      cases ev <;> rfl

/-- Helper for C9: the "finalized blocks" fetch projection. -/
theorem finalizedHeadersRequested_eq_spec {R : Type}
    (evs : List (FollowEvent R)) :
    finalizedHeadersRequested evs = specFinalizedHeaderHashes evs := by
  induction evs with
  | nil => rfl
  | cons ev rest ih =>
      have step : finalizedHeadersRequested (ev :: rest)
          = finalizedBlocksSelector ev ++ finalizedHeadersRequested rest := rfl
      rw [step, ih]
      cases ev <;> rfl

/-- **C9**: the three header streams are distinct projections of the same
follow-event feed: `stream_all_block_headers` fetches headers exactly for
the `Initialized` finalized hash and each `NewBlock` hash;
`stream_best_block_headers` exactly for the `Initialized` finalized hash
and each `BestBlockChanged` hash; `stream_finalized_block_headers`
exactly for the `Initialized` finalized hash and every hash in each
`Finalized` event's `finalized_block_hashes`, in event order. -/
theorem c9_header_stream_projections {R : Type} (evs : List (FollowEvent R)) :
    allHeadersRequested evs = specAllHeaderHashes evs ∧
    bestHeadersRequested evs = specBestHeaderHashes evs ∧
    finalizedHeadersRequested evs = specFinalizedHeaderHashes evs :=
  ⟨allHeadersRequested_eq_spec evs, bestHeadersRequested_eq_spec evs,
   finalizedHeadersRequested_eq_spec evs⟩

/-- **C4**: a `LimitReached` method response makes `block_body` and
`call` return the rejected/limit-reached error immediately, for every
follow-event feed, with a result that does not depend on the feed at all
(no events consumed, no operation tracked). -/
theorem c4_limit_reached_rejects_immediately {R : Type}
    (events : List (FollowEvent R)) :
    block_body .limitReached events
      = .error (.rpc (.requestRejected "limit reached")) ∧
    call .limitReached events
      = .error (.rpc (.requestRejected "limit reached")) ∧
    block_body .limitReached events = block_body (R := R) .limitReached [] ∧
    call .limitReached events = call (R := R) .limitReached [] :=
  ⟨rfl, rfl, rfl, rfl⟩

/-- **C5**: a completion event (`OperationBodyDone` / `OperationCallDone`)
whose `operation_id` differs from the id the node assigned has no effect
on the pending operation: deleting it from the feed leaves the result of
`block_body` / `call` unchanged. -/
theorem c5_other_operation_ids_skipped {R : Type} (opid : String)
    (evs1 evs2 : List (FollowEvent R)) (b : OperationBodyDoneEv)
    (c : OperationCallDoneEv) (hb : b.operation_id ≠ opid)
    (hc : c.operation_id ≠ opid) :
    block_body (.started opid) (evs1 ++ .operationBodyDone b :: evs2)
      = block_body (.started opid) (evs1 ++ evs2) ∧
    call (.started opid) (evs1 ++ .operationCallDone c :: evs2)
      = call (.started opid) (evs1 ++ evs2) := by
  constructor
  · simp [block_body, List.filterMap_append, bodyDoneMatch, hb]
  · simp [call, List.filterMap_append, callDoneMatch, hc]

/-- Witness for C5 at a concrete input. -/
theorem c5_other_operation_ids_skipped_witness :
    block_body (R := Nat) (.started "op1")
        ([] ++ .operationBodyDone ⟨"op2", [⟨[9]⟩]⟩
          :: [.operationBodyDone ⟨"op1", [⟨[1]⟩]⟩])
      = block_body (R := Nat) (.started "op1")
        ([] ++ [.operationBodyDone ⟨"op1", [⟨[1]⟩]⟩]) ∧
    call (R := Nat) (.started "op1")
        ([] ++ .operationCallDone ⟨"op2", ⟨[9]⟩⟩
          :: [.operationBodyDone ⟨"op1", [⟨[1]⟩]⟩])
      = call (R := Nat) (.started "op1")
        ([] ++ [.operationBodyDone ⟨"op1", [⟨[1]⟩]⟩]) :=
  c5_other_operation_ids_skipped "op1" [] [.operationBodyDone ⟨"op1", [⟨[1]⟩]⟩]
    ⟨"op2", [⟨[9]⟩]⟩ ⟨"op2", ⟨[9]⟩⟩ (by decide) (by decide)

/-- Counterexample to **C3** as stated: at a concrete input, a matching
`OperationError` does not complete the operation with an error.
`block_body` skips it and resolves from a later `OperationBodyDone` with
a successful result, and `call` skips it and keeps waiting until the
feed ends (surfacing `SubscriptionDropped`, not the operation's error). -/
theorem c3_counterexample :
    block_body (R := Nat) (.started "op1")
        [.operationError ⟨"op1", "boom"⟩,
         .operationBodyDone ⟨"op1", [⟨[1, 2]⟩]⟩]
      = .ok (some [[1, 2]]) ∧
    call (R := Nat) (.started "op1") [.operationError ⟨"op1", "boom"⟩]
      = .error (.rpc .subscriptionDropped) :=
  ⟨rfl, rfl⟩

/-- **C3 (amended)**: the pending result resolves only when the matching
`OperationBodyDone` / `OperationCallDone` is observed; an
`OperationError` event — matching id or not — is ignored (deleting it
from the feed changes nothing), so in the error case the operation keeps
waiting instead of completing with an error. -/
theorem c3_amended_done_resolves_error_ignored {R : Type} (opid : String)
    (e : OperationErrorEv) (evs : List (FollowEvent R)) (v : List Bytes)
    (out : Bytes) :
    block_body (.started opid) (.operationError e :: evs)
      = block_body (.started opid) evs ∧
    call (.started opid) (.operationError e :: evs)
      = call (.started opid) evs ∧
    block_body (.started opid) (.operationBodyDone ⟨opid, v⟩ :: evs)
      = .ok (some (v.map Bytes.val)) ∧
    call (.started opid) (.operationCallDone ⟨opid, out⟩ :: evs)
      = .ok out.val := by
  refine ⟨?_, ?_, ?_, ?_⟩ <;>
    simp [block_body, call, bodyDoneMatch, callDoneMatch]

/-- **C10**: a backend built without calling `max_block_life` has
`max_block_life = usize::MAX`; with that default no block age (a
difference of two `usize` block numbers) is ever evicted for age, and an
age-based eviction is only possible for an explicitly configured bound
smaller than `usize::MAX`. -/
theorem c10_default_max_block_life :
    UnstableBackendBuilder.new.max_block_life = usizeMax ∧
    (∀ n, (UnstableBackendBuilder.new.withMaxBlockLife n).max_block_life = n) ∧
    (∀ fin blk : Nat, fin ≤ usizeMax →
      evictedForAge UnstableBackendBuilder.new.max_block_life
        (blockAge fin blk) = false) ∧
    (∀ life age : Nat, age ≤ usizeMax → evictedForAge life age = true →
      life < usizeMax) := by
  refine ⟨rfl, fun n => rfl, fun fin blk hfin => ?_, fun life age hage hev => ?_⟩
  · have h1 : blockAge fin blk ≤ usizeMax :=
      le_trans (Nat.sub_le _ _) hfin
    simp only [evictedForAge, UnstableBackendBuilder.new,
      decide_eq_false_iff_not]
    exact Nat.not_lt.mpr h1
  · simp only [evictedForAge, decide_eq_true_eq] at hev
    exact lt_of_lt_of_le hev hage

/-- Witness for C10 at concrete inputs. -/
theorem c10_default_max_block_life_witness :
    (UnstableBackendBuilder.new.withMaxBlockLife 5).max_block_life = 5 ∧
    evictedForAge UnstableBackendBuilder.new.max_block_life
      (blockAge 1000 3) = false ∧
    3 < usizeMax :=
  ⟨c10_default_max_block_life.2.1 5,
   c10_default_max_block_life.2.2.1 1000 3 (by decide),
   c10_default_max_block_life.2.2.2 3 7 (by decide) (by decide)⟩

/-!
## Association-list lemmas
-/

/-- Looking up after erasing a key. -/
theorem alistLookup_erase {H A : Type} [DecidableEq H] (m : List (H × A))
    (k h : H) :
    alistLookup (alistErase m k) h = if k = h then none else alistLookup m h := by
  induction m with
  | nil => simp [alistErase, alistLookup]
  | cons p rest ih =>
      obtain ⟨k', v⟩ := p
      by_cases hk : k' = k
      · subst hk
        rw [show alistErase ((k', v) :: rest) k' = alistErase rest k' by
          simp [alistErase]]
        rw [ih]
        by_cases hh : k' = h
        · simp [hh]
        · simp [alistLookup, hh]
      · rw [show alistErase ((k', v) :: rest) k = (k', v) :: alistErase rest k by
          simp [alistErase, hk]]
        by_cases hh : k' = h
        · have hkh : ¬k = h := fun e => hk (hh.trans e.symm)
          simp [alistLookup, hh, hkh]
        · simp [alistLookup, hh, ih]

/-- Looking up after inserting. -/
theorem alistLookup_insert {H A : Type} [DecidableEq H] (m : List (H × A))
    (k : H) (v : A) (h : H) :
    alistLookup (alistInsert m k v) h
      = if k = h then some v else alistLookup m h := by
  simp only [alistInsert, alistLookup]
  by_cases hh : k = h
  · simp [hh]
  · simp [hh, alistLookup_erase]

/-- A successful lookup points at an entry of the list. -/
theorem alistLookup_some_mem {H A : Type} [DecidableEq H] {m : List (H × A)}
    {k : H} {v : A} (hl : alistLookup m k = some v) : (k, v) ∈ m := by
  induction m with
  | nil => exact absurd hl (by simp [alistLookup])
  | cons p rest ih =>
      obtain ⟨k', v'⟩ := p
      simp only [alistLookup] at hl
      by_cases hk : k' = k
      · rw [if_pos hk] at hl
        obtain rfl := hk
        obtain rfl := Option.some.inj hl
        exact List.mem_cons_self _ _
      · rw [if_neg hk] at hl
        exact List.mem_cons_of_mem _ (ih hl)

/-- Entries after erasing come from the original list. -/
theorem mem_alistErase {H A : Type} [DecidableEq H] {m : List (H × A)}
    {k : H} {e : H × A} (he : e ∈ alistErase m k) : e ∈ m := by
  induction m with
  | nil => exact absurd he (by simp [alistErase])
  | cons p rest ih =>
      obtain ⟨k', v'⟩ := p
      simp only [alistErase] at he
      by_cases hk : k' = k
      · rw [if_pos hk] at he
        exact List.mem_cons_of_mem _ (ih he)
      · rw [if_neg hk] at he
        rcases List.mem_cons.mp he with h1 | h1
        · exact h1 ▸ List.mem_cons_self _ _
        · exact List.mem_cons_of_mem _ (ih h1)

/-- Entries after inserting are the new entry or come from the original
list. -/
theorem mem_alistInsert {H A : Type} [DecidableEq H] {m : List (H × A)}
    {k : H} {v : A} {e : H × A} (he : e ∈ alistInsert m k v) :
    e = (k, v) ∨ e ∈ m := by
  rcases List.mem_cons.mp he with h1 | h1
  · exact Or.inl h1
  · exact Or.inr (mem_alistErase h1)

/-!
## `lastSome` lemmas
-/

/-- `lastSome` on a snoc list prefers the new last element. -/
theorem lastSome_append_single {A B : Type} (g : A → Option B) (l : List A)
    (a : A) :
    lastSome g (l ++ [a])
      = match g a with
        | some b => some b
        | none => lastSome g l := by
  induction l with
  | nil => cases h : g a <;> simp [lastSome, h]
  | cons x t ih =>
      simp only [List.cons_append, lastSome]
      cases h : g a <;> cases h2 : lastSome g t <;> simp [ih, h, h2]

/-- `head?` of `filterMap` over a reversed list is the latest `some`. -/
theorem head?_filterMap_reverse {A B : Type} (g : A → Option B) (l : List A) :
    (l.reverse.filterMap g).head? = lastSome g l := by
  induction l with
  | nil => rfl
  | cons a t ih =>
      rw [List.reverse_cons, List.filterMap_append]
      cases h2 : t.reverse.filterMap g with
      | nil =>
          rw [h2] at ih
          cases h : g a <;>
            simp [lastSome, ← ih, List.filterMap_cons, h]
      | cons b bs =>
          rw [h2] at ih
          simp [lastSome, ← ih]

/-- `lastSome` finds a value exactly when some element yields one. -/
theorem lastSome_isSome_iff {A B : Type} (g : A → Option B) (l : List A) :
    (lastSome g l).isSome ↔ ∃ a ∈ l, (g a).isSome := by
  induction l with
  | nil => simp [lastSome]
  | cons a t ih =>
      simp only [lastSome]
      cases h2 : lastSome g t with
      | some b =>
          rw [h2] at ih
          simp only [Option.isSome_some, true_iff] at ih
          obtain ⟨x, hx, hgx⟩ := ih
          simp only [Option.isSome_some, true_iff]
          exact ⟨x, List.mem_cons_of_mem _ hx, hgx⟩
      | none =>
          rw [h2] at ih
          simp only [Option.isSome_none, Bool.false_eq_true, false_iff,
            not_exists] at ih
          constructor
          · intro hga
            exact ⟨a, List.mem_cons_self _ _, hga⟩
          · rintro ⟨x, hx, hgx⟩
            rcases List.mem_cons.mp hx with rfl | hx2
            · exact hgx
            · exact absurd ⟨hx2, hgx⟩ (ih x)

/-!
## `stream_runtime_version` lemmas
-/

/-- The `runtimes` map tracks exactly the `NewBlock` records since the
last clearing event, generalized over the starting state. -/
theorem runtimesState_lookup_aux {H R : Type} [DecidableEq H] (hashOf : R → H)
    (evs : List (FollowEvent R)) :
    ∀ (st : List (H × RuntimeEvent)) (acc : List (FollowEvent R)),
      (∀ h, alistLookup st h = lastSome (newRuntimeFor hashOf h) acc) →
      ∀ h,
        alistLookup (runtimesStateFrom hashOf st evs) h
          = lastSome (newRuntimeFor hashOf h)
              (evs.foldl
                (fun acc ev => if isRuntimeClearEvent ev then [] else acc ++ [ev])
                acc) := by
  induction evs with
  | nil => intro st acc hinv h; exact hinv h
  | cons ev rest ih =>
      intro st acc hinv h
      have hinv2 : ∀ h',
          alistLookup ((runtimeUpdate hashOf st ev).1) h'
            = lastSome (newRuntimeFor hashOf h')
                (if isRuntimeClearEvent ev then [] else acc ++ [ev]) := by
        intro h'
        cases ev with
        | initEv e =>
            simp [runtimeUpdate, isRuntimeClearEvent, alistLookup, lastSome]
        | finalizedEv e =>
            simp [runtimeUpdate, isRuntimeClearEvent, alistLookup, lastSome]
        | newBlock nb =>
            simp only [isRuntimeClearEvent, Bool.false_eq_true, if_false]
            rw [lastSome_append_single]
            cases hrt : nb.new_runtime with
            | none => simp [runtimeUpdate, hrt, newRuntimeFor, hinv h']
            | some rt =>
                simp only [runtimeUpdate, hrt, newRuntimeFor]
                by_cases hkh : hashOf nb.block_hash = h'
                · simp [alistLookup_insert, hkh]
                · simp [alistLookup_insert, hkh, hinv h']
        | bestBlockChanged e =>
            simp only [isRuntimeClearEvent, Bool.false_eq_true, if_false]
            rw [lastSome_append_single]
            simp [runtimeUpdate, newRuntimeFor, hinv h']
        | operationBodyDone e =>
            simp only [isRuntimeClearEvent, Bool.false_eq_true, if_false]
            rw [lastSome_append_single]
            simp [runtimeUpdate, newRuntimeFor, hinv h']
        | operationCallDone e =>
            simp only [isRuntimeClearEvent, Bool.false_eq_true, if_false]
            rw [lastSome_append_single]
            simp [runtimeUpdate, newRuntimeFor, hinv h']
        | operationStorageItems =>
            simp only [isRuntimeClearEvent, Bool.false_eq_true, if_false]
            rw [lastSome_append_single]
            simp [runtimeUpdate, newRuntimeFor, hinv h']
        | operationError e =>
            simp only [isRuntimeClearEvent, Bool.false_eq_true, if_false]
            rw [lastSome_append_single]
            simp [runtimeUpdate, newRuntimeFor, hinv h']
        | stop =>
            simp only [isRuntimeClearEvent, Bool.false_eq_true, if_false]
            rw [lastSome_append_single]
            simp [runtimeUpdate, newRuntimeFor, hinv h']
      exact ih _ _ hinv2 h

/-- The `runtimes` map of the scan holds, for every hash, exactly the
runtime carried by the latest `NewBlock` for it since the last clearing
event. -/
theorem runtimesState_lookup {H R : Type} [DecidableEq H] (hashOf : R → H)
    (evs : List (FollowEvent R)) (h : H) :
    alistLookup (runtimesState hashOf evs) h = recordedRuntime hashOf evs h :=
  runtimesState_lookup_aux hashOf evs [] [] (fun _ => rfl) h

/-- The emitted items decompose along an append of event lists. -/
theorem runtimeItemsFrom_append {H R : Type} [DecidableEq H] (hashOf : R → H)
    (l1 l2 : List (FollowEvent R)) (st : List (H × RuntimeEvent)) :
    runtimeItemsFrom hashOf st (l1 ++ l2)
      = runtimeItemsFrom hashOf st l1
        ++ runtimeItemsFrom hashOf (runtimesStateFrom hashOf st l1) l2 := by
  induction l1 generalizing st with
  | nil => rfl
  | cons ev t ih =>
      have h1 : runtimeItemsFrom hashOf st ((ev :: t) ++ l2)
          = ((runtimeUpdate hashOf st ev).2.map runtimeItem).toList
            ++ runtimeItemsFrom hashOf (runtimeUpdate hashOf st ev).1 (t ++ l2) :=
        rfl
      have h2 : runtimesStateFrom hashOf st (ev :: t)
          = runtimesStateFrom hashOf (runtimeUpdate hashOf st ev).1 t := rfl
      rw [h1, ih, h2]
      exact (List.append_assoc _ _ _).symm

/-- **C6**: `stream_runtime_version` emits a value exactly when (a) an
`Initialized` event carries a runtime payload, or (b) a `Finalized` event
finalizes at least one block with a recorded runtime, where the recorded
runtimes are precisely those carried by `NewBlock` events since the last
`Initialized`/`Finalized` (they are cleared on every such event); in
case (b) the value emitted derives from the last such hash in the
`finalized_block_hashes` order. -/
theorem c6_stream_runtime_version {H R : Type} [DecidableEq H]
    (hashOf : R → H) (evs : List (FollowEvent R)) (ev : FollowEvent R) :
    (stream_runtime_version hashOf (evs ++ [ev])
      = stream_runtime_version hashOf evs
        ++ ((runtimeUpdate hashOf (runtimesState hashOf evs) ev).2.map
              runtimeItem).toList) ∧
    ((runtimeUpdate hashOf (runtimesState hashOf evs) ev).2.isSome ↔
      (∃ iv, ev = FollowEvent.initEv iv ∧ iv.finalized_block_runtime.isSome) ∨
      (∃ f, ev = FollowEvent.finalizedEv f ∧
        ∃ r ∈ f.finalized_block_hashes,
          (alistLookup (runtimesState hashOf evs) (hashOf r)).isSome)) ∧
    (∀ f, ev = FollowEvent.finalizedEv f →
      (runtimeUpdate hashOf (runtimesState hashOf evs) ev).2
        = latestRecordedAtFrontier hashOf (runtimesState hashOf evs)
            f.finalized_block_hashes) ∧
    (∀ h, alistLookup (runtimesState hashOf evs) h
      = recordedRuntime hashOf evs h) ∧
    (isRuntimeClearEvent ev = true → runtimesState hashOf (evs ++ [ev]) = []) := by
  refine ⟨?_, ?_, ?_, fun h => runtimesState_lookup hashOf evs h, ?_⟩
  · show runtimeItemsFrom hashOf [] (evs ++ [ev]) = _
    rw [runtimeItemsFrom_append]
    simp [stream_runtime_version, runtimeItemsFrom, runtimesState]
  · cases ev with
    | initEv iv =>
        simp only [runtimeUpdate]
        constructor
        · intro hs
          exact Or.inl ⟨iv, rfl, hs⟩
        · rintro (⟨iv2, heq, hs⟩ | ⟨f, heq, _⟩)
          · obtain rfl := (FollowEvent.initEv.inj heq)
            exact hs
          · exact absurd heq (by simp)
    | finalizedEv f =>
        simp only [runtimeUpdate]
        rw [head?_filterMap_reverse]
        rw [lastSome_isSome_iff]
        constructor
        · rintro ⟨r, hr, hs⟩
          exact Or.inr ⟨f, rfl, r, hr, hs⟩
        · rintro (⟨iv2, heq, _⟩ | ⟨f2, heq, r, hr, hs⟩)
          · exact absurd heq (by simp)
          · obtain rfl := (FollowEvent.finalizedEv.inj heq)
            exact ⟨r, hr, hs⟩
    | newBlock nb =>
        cases hrt : nb.new_runtime <;> simp [runtimeUpdate, hrt]
    | bestBlockChanged e => simp [runtimeUpdate]
    | operationBodyDone e => simp [runtimeUpdate]
    | operationCallDone e => simp [runtimeUpdate]
    | operationStorageItems => simp [runtimeUpdate]
    | operationError e => simp [runtimeUpdate]
    | stop => simp [runtimeUpdate]
  · rintro f rfl
    simp only [runtimeUpdate, latestRecordedAtFrontier]
    exact head?_filterMap_reverse _ _
  · intro hclear
    have hstep : runtimesState hashOf (evs ++ [ev])
        = (runtimeUpdate hashOf (runtimesState hashOf evs) ev).1 := by
      simp [runtimesState, runtimesStateFrom, List.foldl_append]
    rw [hstep]
    cases ev <;> simp_all [isRuntimeClearEvent, runtimeUpdate]

/-- Witness for C6 at a concrete input: one `NewBlock` carrying a
runtime, then a `Finalized` event for it. -/
theorem c6_stream_runtime_version_witness :
    (runtimeUpdate (fun h : Nat => h)
        (runtimesState (fun h : Nat => h)
          [FollowEvent.newBlock ⟨1, 0, some (.valid ⟨⟨10, 2⟩⟩)⟩])
        (.finalizedEv ⟨[1], []⟩)).2
      = latestRecordedAtFrontier (fun h : Nat => h)
          (runtimesState (fun h : Nat => h)
            [FollowEvent.newBlock ⟨1, 0, some (.valid ⟨⟨10, 2⟩⟩)⟩])
          [1] :=
  (c6_stream_runtime_version (fun h : Nat => h)
      [FollowEvent.newBlock ⟨1, 0, some (.valid ⟨⟨10, 2⟩⟩)⟩]
      (.finalizedEv ⟨[1], []⟩)).2.2.1 ⟨[1], []⟩ rfl

/-!
## `submit_transaction` lemmas
-/

section SubmitTxLemmas

variable {H R : Type} [DecidableEq H]

/-- Once `done`, a step changes nothing and emits nothing
(`mod.rs` lines 481-483). -/
theorem txStep_done (hashOf : R → H) (st : TxState H R) (i : TxIn H R)
    (hd : st.done = true) : txStep hashOf st i = (st, []) := by
  simp [txStep, hd]

/-- Once `done`, the stream yields nothing more. -/
theorem txOutputsFrom_done (hashOf : R → H) (st : TxState H R)
    (l : List (TxIn H R)) (hd : st.done = true) :
    txOutputsFrom hashOf st l = [] := by
  induction l with
  | nil => rfl
  | cons i rest ih =>
      show (txStep hashOf st i).2
          ++ txOutputsFrom hashOf (txStep hashOf st i).1 rest = []
      rw [txStep_done hashOf st i hd]
      simpa using ih

/-- Recording seen blocks touches neither `finalized_hash` nor `done`. -/
theorem txSeenBlocks_fields (hashOf : R → H) (st : TxState H R)
    (ev : FollowEvent R) :
    (txSeenBlocks hashOf st ev).finalized_hash = st.finalized_hash ∧
    (txSeenBlocks hashOf st ev).done = st.done := by
  cases ev <;> try exact ⟨rfl, rfl⟩
  by_cases hf : st.finalized_hash = none <;> simp [txSeenBlocks, hf]

/-- The wait-for-finalized check never changes `finalized_hash`. -/
theorem txCheckFinalized_fh (hashOf : R → H) (st : TxState H R) :
    (txCheckFinalized hashOf st).1.finalized_hash = st.finalized_hash := by
  unfold txCheckFinalized
  split
  · rfl
  · split
    · rfl
    · rfl

/-- The wait-for-finalized check emits nothing and keeps `done`, or
emits exactly one `InFinalizedBlock` and sets `done`. -/
theorem txCheckFinalized_out (hashOf : R → H) (st : TxState H R) :
    ((txCheckFinalized hashOf st).2 = [] ∧
      (txCheckFinalized hashOf st).1.done = st.done) ∨
    (∃ br, (txCheckFinalized hashOf st).2
        = [Except.ok (TransactionStatus.inFinalizedBlock br)] ∧
      (txCheckFinalized hashOf st).1.done = true) := by
  unfold txCheckFinalized
  split
  · exact Or.inl ⟨rfl, rfl⟩
  · split
    · exact Or.inr ⟨_, rfl, rfl⟩
    · exact Or.inl ⟨rfl, rfl⟩

/-- `finalized_hash` is never unset by a step. -/
theorem txStep_fh_mono (hashOf : R → H) (st : TxState H R) (i : TxIn H R)
    (h : H) (hf : st.finalized_hash = some h) :
    (txStep hashOf st i).1.finalized_hash = some h := by
  by_cases hd : st.done = true
  · rw [txStep_done hashOf st i hd]; exact hf
  · have hd2 : st.done = false := by simpa using hd
    cases i with
    | follow ev =>
        have hstep : txStep hashOf st (.follow ev)
            = txCheckFinalized hashOf (txSeenBlocks hashOf st ev) := by
          simp [txStep, hd2]
        rw [hstep, txCheckFinalized_fh, (txSeenBlocks_fields hashOf st ev).1]
        exact hf
    | status s => simp [txStep, hd2, hf]
    | statusErr e => simp [txStep, hd2, hf]
    | txEnd => simp [txStep, hd2, hf]

/-- `done` is never unset by a step. -/
theorem txStep_done_mono (hashOf : R → H) (st : TxState H R) (i : TxIn H R)
    (hd : st.done = true) : (txStep hashOf st i).1.done = true := by
  rw [txStep_done hashOf st i hd]; exact hd

/-- `finalized_hash` is never unset by a run. -/
theorem txRunState_fh_mono (hashOf : R → H) (l : List (TxIn H R))
    (st : TxState H R) (h : H) (hf : st.finalized_hash = some h) :
    (txRunState hashOf st l).finalized_hash = some h := by
  induction l generalizing st with
  | nil => exact hf
  | cons i rest ih => exact ih _ (txStep_fh_mono hashOf st i h hf)

/-- `done` is never unset by a run. -/
theorem txRunState_done_mono (hashOf : R → H) (l : List (TxIn H R))
    (st : TxState H R) (hd : st.done = true) :
    (txRunState hashOf st l).done = true := by
  induction l generalizing st with
  | nil => exact hd
  | cons i rest ih => exact ih _ (txStep_done_mono hashOf st i hd)

/-- From a state whose `finalized_hash` is set, the remaining output is
nothing, or exactly one `InFinalizedBlock` and nothing after it. -/
theorem txOutputsFrom_after_finalized (hashOf : R → H)
    (l : List (TxIn H R)) :
    ∀ st : TxState H R, st.finalized_hash.isSome →
      txOutputsFrom hashOf st l = [] ∨
      ∃ br, txOutputsFrom hashOf st l
          = [Except.ok (TransactionStatus.inFinalizedBlock br)] := by
  induction l with
  | nil => exact fun st _ => Or.inl rfl
  | cons i rest ih =>
      intro st hf
      obtain ⟨h, hf2⟩ := Option.isSome_iff_exists.mp hf
      by_cases hd : st.done = true
      · exact Or.inl (txOutputsFrom_done hashOf st (i :: rest) hd)
      · have hd2 : st.done = false := by simpa using hd
        have hunf : txOutputsFrom hashOf st (i :: rest)
            = (txStep hashOf st i).2
              ++ txOutputsFrom hashOf (txStep hashOf st i).1 rest := rfl
        have hfh' : (txStep hashOf st i).1.finalized_hash = some h :=
          txStep_fh_mono hashOf st i h hf2
        cases i with
        | follow ev =>
            have hstep : txStep hashOf st (.follow ev)
                = txCheckFinalized hashOf (txSeenBlocks hashOf st ev) := by
              simp [txStep, hd2]
            rcases txCheckFinalized_out hashOf (txSeenBlocks hashOf st ev) with
              ⟨hout, _⟩ | ⟨br, hout, hdone⟩
            · rw [hunf, hstep, hout, List.nil_append]
              exact ih _ (by rw [← hstep]; simp [hfh'])
            · refine Or.inr ⟨br, ?_⟩
              rw [hunf, hstep, hout,
                txOutputsFrom_done hashOf _ rest (by rw [← hstep] at hdone ⊢; exact hdone)]
              rfl
        | status s =>
            have hstep : txStep hashOf st (.status s) = (st, []) := by
              simp [txStep, hd2, hf2]
            rw [hunf, hstep, List.nil_append]
            exact ih st hf
        | statusErr e =>
            have hstep : txStep hashOf st (.statusErr e) = (st, []) := by
              simp [txStep, hd2, hf2]
            rw [hunf, hstep, List.nil_append]
            exact ih st hf
        | txEnd =>
            have hstep : txStep hashOf st .txEnd = (st, []) := by
              simp [txStep, hd2, hf2]
            rw [hunf, hstep, List.nil_append]
            exact ih st hf

/-- **C2**: once the transaction feed reports `Finalized{hash}` (which
records `finalized_hash`), the stream forwards no further
transaction-feed statuses: whatever arrives afterwards, the only element
it may still emit is a single `InFinalizedBlock`, and once `done` is set
(as emission sets it) the stream yields nothing more. -/
theorem c2_finalized_then_single_terminal (hashOf : R → H)
    (pre suf : List (TxIn H R)) (st : TxState H R) (b : TxBlockDetails H) :
    ((txRunState hashOf initTxState pre).finalized_hash.isSome →
      txOutputsFrom hashOf (txRunState hashOf initTxState pre) suf = [] ∨
      ∃ br, txOutputsFrom hashOf (txRunState hashOf initTxState pre) suf
          = [Except.ok (TransactionStatus.inFinalizedBlock br)]) ∧
    (st.done = false → st.finalized_hash = none →
      (txStep hashOf st (.status (.finalizedTx b))).1.finalized_hash
        = some b.hash) ∧
    (st.done = true → txOutputsFrom hashOf st suf = []) := by
  refine ⟨fun hf => txOutputsFrom_after_finalized hashOf suf _ hf,
    fun hd hfn => ?_, fun hd => txOutputsFrom_done hashOf st suf hd⟩
  have hstep : txStep hashOf st (.status (.finalizedTx b))
      = txCheckFinalized hashOf { st with finalized_hash := some b.hash } := by
    simp [txStep, hd, hfn]
  rw [hstep, txCheckFinalized_fh]

/-- Witness for C2 at a concrete input: the finalized status names block
5, and the follow feed then finalizes block 5. -/
theorem c2_finalized_then_single_terminal_witness :
    (txOutputsFrom (fun h : Nat => h)
        (txRunState (fun h : Nat => h) initTxState
          [TxIn.status (.finalizedTx ⟨5⟩)])
        [TxIn.follow (.finalizedEv ⟨[5], []⟩)] = [] ∨
      ∃ br, txOutputsFrom (fun h : Nat => h)
          (txRunState (fun h : Nat => h) initTxState
            [TxIn.status (.finalizedTx ⟨5⟩)])
          [TxIn.follow (.finalizedEv ⟨[5], []⟩)]
        = [Except.ok (TransactionStatus.inFinalizedBlock br)]) ∧
    (txStep (fun h : Nat => h) initTxState
        (.status (.finalizedTx ⟨5⟩))).1.finalized_hash = some 5 :=
  ⟨(c2_finalized_then_single_terminal (fun h : Nat => h)
      [TxIn.status (.finalizedTx ⟨5⟩)] [TxIn.follow (.finalizedEv ⟨[5], []⟩)]
      initTxState ⟨5⟩).1 (by decide),
   (c2_finalized_then_single_terminal (fun h : Nat => h)
      [TxIn.status (.finalizedTx ⟨5⟩)] [TxIn.follow (.finalizedEv ⟨[5], []⟩)]
      initTxState ⟨5⟩).2.1 rfl rfl⟩

/-- Counterexample to **C7** as stated: at a concrete input, a node-side
`Error{error}` is surfaced as `Dropped{message}` — not as a distinct
error-kind status — and the stream does not terminate with it: a
subsequent `Validated` from the feed is still forwarded. -/
theorem c7_counterexample :
    submit_transaction (fun h : Nat => h)
        [TxIn.status (.errorStatus "boom"), TxIn.status .validated]
      = [Except.ok (TransactionStatus.dropped "boom"),
         Except.ok TransactionStatus.validated] ∧
    Except.ok (TransactionStatus.errorTx (H := Nat) (R := Nat) "boom")
      ∉ submit_transaction (fun h : Nat => h)
          [TxIn.status (.errorStatus "boom"), TxIn.status .validated] := by
  constructor
  · rfl
  · decide

/-- **C7 (amended)**: before finalization, `Dropped` is surfaced as
`Dropped` and `Invalid` as `Invalid`; a node-side `Error` is also
surfaced as `Dropped` (its message preserved), not as a distinct
error-kind status; none of these marks the stream `done`, so the adapter
itself does not cut the sequence off after such a failure — the sequence
ends when the node's feed ends. -/
theorem c7_amended_failure_statuses (hashOf : R → H) (st : TxState H R)
    (isBr : Bool) (e : String) (hd : st.done = false)
    (hfn : st.finalized_hash = none) :
    txStep hashOf st (.status (.dropped isBr e))
      = (st, [Except.ok (TransactionStatus.dropped e)]) ∧
    txStep hashOf st (.status (.invalidStatus e))
      = (st, [Except.ok (TransactionStatus.invalidTx e)]) ∧
    txStep hashOf st (.status (.errorStatus e))
      = (st, [Except.ok (TransactionStatus.dropped e)]) := by
  refine ⟨?_, ?_, ?_⟩ <;> simp [txStep, hd, hfn]

/-- Witness for the amended C7 at a concrete state. -/
theorem c7_amended_failure_statuses_witness :
    txStep (fun h : Nat => h) initTxState (.status (.dropped false "x"))
      = (initTxState, [Except.ok (TransactionStatus.dropped "x")]) ∧
    txStep (fun h : Nat => h) initTxState (.status (.invalidStatus "x"))
      = (initTxState, [Except.ok (TransactionStatus.invalidTx "x")]) ∧
    txStep (fun h : Nat => h) initTxState (.status (.errorStatus "x"))
      = (initTxState, [Except.ok (TransactionStatus.dropped "x")]) :=
  c7_amended_failure_statuses (fun h : Nat => h) initTxState false "x" rfl rfl

/-- Entries of a fold of insertions are the inserted pairs or original
entries. -/
theorem mem_foldl_alistInsert {A R2 : Type} (g : R2 → H) (val : R2 → A)
    (hs : List R2) (m0 : List (H × A)) (e : H × A)
    (he : e ∈ hs.foldl (fun m r => alistInsert m (g r) (val r)) m0) :
    (∃ r ∈ hs, e = (g r, val r)) ∨ e ∈ m0 := by
  induction hs generalizing m0 with
  | nil => exact Or.inr he
  | cons r t ih =>
      rcases ih _ he with ⟨r2, hr2, he2⟩ | hmem
      · exact Or.inl ⟨r2, List.mem_cons_of_mem _ hr2, he2⟩
      · rcases mem_alistInsert hmem with he2 | hmem2
        · exact Or.inl ⟨r, List.mem_cons_self _ _, he2⟩
        · exact Or.inr hmem2

omit [DecidableEq H] in
/-- The `seen_blocks` invariant is stable under extending the arrival
history. -/
theorem seenBlocksInv_mono (hashOf : R → H) {ins ins2 : List (TxIn H R)}
    {sb : List (H × SeenBlockMarker × R)}
    (h : SeenBlocksInv hashOf ins sb) :
    SeenBlocksInv hashOf (ins ++ ins2) sb := by
  intro k m r hm
  obtain ⟨h1, h2⟩ := h k m r hm
  refine ⟨h1, fun hmk => ?_⟩
  obtain ⟨f, hf1, hf2⟩ := h2 hmk
  exact ⟨f, List.mem_append_left _ hf1, hf2⟩

omit [DecidableEq H] in
/-- The `finalized_hash` invariant is stable under extending the arrival
history. -/
theorem finalizedHashInv_mono {ins ins2 : List (TxIn H R)} {fh : Option H}
    (h : FinalizedHashInv ins fh) : FinalizedHashInv (ins ++ ins2) fh := by
  intro h0 hh
  obtain ⟨b, hb1, hb2⟩ := h h0 hh
  exact ⟨b, List.mem_append_left _ hb1, hb2⟩

/-- Recording one follow event preserves the `seen_blocks` invariant
(extended by that arrival): a `NewBlock` entry has the `New` marker, and
the `Finalized` entries come from the `Finalized` event itself. -/
theorem txSeenBlocks_inv (hashOf : R → H) (ins : List (TxIn H R))
    (st : TxState H R) (ev : FollowEvent R)
    (hs : SeenBlocksInv hashOf ins st.seen_blocks) :
    SeenBlocksInv hashOf (ins ++ [TxIn.follow ev])
      (txSeenBlocks hashOf st ev).seen_blocks := by
  cases ev with
  | newBlock nb =>
      by_cases hf : st.finalized_hash = none
      · intro k m r hm
        simp only [txSeenBlocks, hf, if_pos] at hm
        rcases mem_alistInsert hm with he | hmem
        · obtain ⟨h1, h2⟩ := Prod.mk.injEq .. ▸ he
          obtain ⟨h2a, h2b⟩ := Prod.mk.inj h2
          subst h1; subst h2a; subst h2b
          exact ⟨rfl, fun hmk => nomatch hmk⟩
        · exact seenBlocksInv_mono hashOf hs k m r hmem
      · have : txSeenBlocks hashOf st (.newBlock nb) = st := by
          simp [txSeenBlocks, hf]
        rw [this]
        exact seenBlocksInv_mono hashOf hs
  | finalizedEv f =>
      intro k m r hm
      simp only [txSeenBlocks] at hm
      rcases mem_foldl_alistInsert hashOf
          (fun r => (SeenBlockMarker.finalizedMarker, r))
          f.finalized_block_hashes st.seen_blocks _ hm with ⟨r2, hr2, he⟩ | hmem
      · obtain ⟨h1, h2⟩ := Prod.mk.inj he
        obtain ⟨h2a, h2b⟩ := Prod.mk.inj h2
        subst h1; subst h2b
        exact ⟨rfl, fun _ =>
          ⟨f, List.mem_append_right _ (List.mem_singleton_self _), hr2⟩⟩
      · exact seenBlocksInv_mono hashOf hs k m r hmem
  | initEv e => exact seenBlocksInv_mono hashOf hs
  | bestBlockChanged e => exact seenBlocksInv_mono hashOf hs
  | operationBodyDone e => exact seenBlocksInv_mono hashOf hs
  | operationCallDone e => exact seenBlocksInv_mono hashOf hs
  | operationStorageItems => exact seenBlocksInv_mono hashOf hs
  | operationError e => exact seenBlocksInv_mono hashOf hs
  | stop => exact seenBlocksInv_mono hashOf hs

/-- The wait-for-finalized check only ever removes `seen_blocks`
entries. -/
theorem txCheckFinalized_seen_sub (hashOf : R → H) (st : TxState H R)
    {e : H × SeenBlockMarker × R}
    (he : e ∈ (txCheckFinalized hashOf st).1.seen_blocks) :
    e ∈ st.seen_blocks := by
  unfold txCheckFinalized at he
  split at he
  · exact he
  · split at he
    · exact mem_alistErase he
    · exact absurd he (List.not_mem_nil _)

/-- A non-`Finalized` transaction status consumed in the watching state
leaves the loop state unchanged. -/
theorem txStep_status_state (hashOf : R → H) (st : TxState H R)
    (s : RpcTransactionStatus H) (hd : st.done = false)
    (hfh : st.finalized_hash = none)
    (hnf : ∀ b, s ≠ RpcTransactionStatus.finalizedTx b) :
    (txStep hashOf st (.status s)).1 = st := by
  cases s with
  | finalizedTx b => exact absurd rfl (hnf b)
  | bestChainBlockIncluded ob => cases ob <;> simp [txStep, hd, hfh]
  | validated => simp [txStep, hd, hfh]
  | broadcasted n => simp [txStep, hd, hfh]
  | dropped isBr e => simp [txStep, hd, hfh]
  | errorStatus e => simp [txStep, hd, hfh]
  | invalidStatus e => simp [txStep, hd, hfh]

/-- One step preserves both invariants, the history extended by the
arrival. -/
theorem txStep_inv (hashOf : R → H) (ins : List (TxIn H R))
    (st : TxState H R) (i : TxIn H R)
    (hs : SeenBlocksInv hashOf ins st.seen_blocks)
    (hf : FinalizedHashInv ins st.finalized_hash) :
    SeenBlocksInv hashOf (ins ++ [i]) (txStep hashOf st i).1.seen_blocks ∧
    FinalizedHashInv (ins ++ [i]) (txStep hashOf st i).1.finalized_hash := by
  by_cases hd : st.done = true
  · rw [txStep_done hashOf st i hd]
    exact ⟨seenBlocksInv_mono hashOf hs, finalizedHashInv_mono hf⟩
  · have hd2 : st.done = false := by simpa using hd
    cases i with
    | follow ev =>
        have hstep : txStep hashOf st (.follow ev)
            = txCheckFinalized hashOf (txSeenBlocks hashOf st ev) := by
          simp [txStep, hd2]
        rw [hstep]
        constructor
        · intro k m r hm
          exact txSeenBlocks_inv hashOf ins st ev hs k m r
            (txCheckFinalized_seen_sub hashOf _ hm)
        · intro h hh
          rw [txCheckFinalized_fh, (txSeenBlocks_fields hashOf st ev).1] at hh
          exact finalizedHashInv_mono hf h hh
    | status s =>
        cases hfh : st.finalized_hash with
        | some h0 =>
            have hstep : txStep hashOf st (.status s) = (st, []) := by
              simp [txStep, hd2, hfh]
            rw [hstep]
            exact ⟨seenBlocksInv_mono hashOf hs, finalizedHashInv_mono hf⟩
        | none =>
            by_cases hnf : ∃ b, s = RpcTransactionStatus.finalizedTx b
            · obtain ⟨b, rfl⟩ := hnf
              have hstep : txStep hashOf st (.status (.finalizedTx b))
                  = txCheckFinalized hashOf
                      { st with finalized_hash := some b.hash } := by
                simp [txStep, hd2, hfh]
              rw [hstep]
              constructor
              · intro k m r hm
                exact seenBlocksInv_mono hashOf hs k m r
                  (txCheckFinalized_seen_sub hashOf
                    { st with finalized_hash := some b.hash } hm)
              · intro h hh
                rw [txCheckFinalized_fh] at hh
                obtain rfl : b.hash = h := Option.some.inj hh
                exact ⟨b, List.mem_append_right _ (List.mem_singleton_self _), rfl⟩
            · have hstate := txStep_status_state hashOf st s hd2 hfh
                (fun b hb => hnf ⟨b, hb⟩)
              rw [hstate]
              exact ⟨seenBlocksInv_mono hashOf hs, finalizedHashInv_mono hf⟩
    | statusErr e =>
        have hstate : (txStep hashOf st (.statusErr e)).1 = st := by
          cases hfh : st.finalized_hash <;> simp [txStep, hd2, hfh]
        rw [hstate]
        exact ⟨seenBlocksInv_mono hashOf hs, finalizedHashInv_mono hf⟩
    | txEnd =>
        cases hfh : st.finalized_hash with
        | some h0 =>
            have hstate : (txStep hashOf st .txEnd).1 = st := by
              simp [txStep, hd2, hfh]
            rw [hstate]
            exact ⟨seenBlocksInv_mono hashOf hs, finalizedHashInv_mono hf⟩
        | none =>
            have hstate : (txStep hashOf st .txEnd).1
                = { st with done := true } := by
              simp [txStep, hd2, hfh]
            rw [hstate]
            exact ⟨seenBlocksInv_mono hashOf hs, finalizedHashInv_mono hf⟩

/-- The invariants hold for every run of the loop. -/
theorem txRun_inv (hashOf : R → H) :
    ∀ (ins pre : List (TxIn H R)) (st : TxState H R),
      SeenBlocksInv hashOf pre st.seen_blocks →
      FinalizedHashInv pre st.finalized_hash →
      SeenBlocksInv hashOf (pre ++ ins)
        (txRunState hashOf st ins).seen_blocks ∧
      FinalizedHashInv (pre ++ ins)
        (txRunState hashOf st ins).finalized_hash := by
  intro ins
  induction ins with
  | nil =>
      intro pre st hs hf
      rw [List.append_nil]
      exact ⟨hs, hf⟩
  | cons i rest ih =>
      intro pre st hs hf
      obtain ⟨hs2, hf2⟩ := txStep_inv hashOf pre st i hs hf
      have h3 := ih (pre ++ [i]) _ hs2 hf2
      rw [List.append_assoc] at h3
      exact h3

/-- An `InFinalizedBlock` emission of the wait-for-finalized check, under
the invariants, carries a ref taken from a `Finalized` follow event in
the history, for the hash named by a `Finalized` transaction status in
the history. -/
theorem txCheckFinalized_emit (hashOf : R → H) (ins : List (TxIn H R))
    (st : TxState H R) (br : BackendBlockRef H R)
    (hs : SeenBlocksInv hashOf ins st.seen_blocks)
    (hf : FinalizedHashInv ins st.finalized_hash)
    (he : Except.ok (TransactionStatus.inFinalizedBlock br)
      ∈ (txCheckFinalized hashOf st).2) :
    ∃ r, br = BackendBlockRef.pinned (hashOf r) r ∧
      (∃ f, TxIn.follow (H := H) (.finalizedEv f) ∈ ins ∧
        r ∈ f.finalized_block_hashes) ∧
      (∃ b, TxIn.status (R := R) (.finalizedTx b) ∈ ins ∧
        b.hash = hashOf r) := by
  unfold txCheckFinalized at he
  split at he
  · exact absurd he (List.not_mem_nil _)
  · next h heq =>
      split at he
      · next r heq2 =>
          simp only [List.mem_singleton, Except.ok.injEq,
            TransactionStatus.inFinalizedBlock.injEq] at he
          have hmem := alistLookup_some_mem heq2
          obtain ⟨hk, hfin⟩ := hs h _ r hmem
          obtain ⟨f, hfmem, hrf⟩ := hfin rfl
          obtain ⟨b, hbmem, hbh⟩ := hf h heq
          exact ⟨r, he, ⟨f, hfmem, hrf⟩, ⟨b, hbmem, hbh.trans hk⟩⟩
      · exact absurd he (List.not_mem_nil _)

/-- **C1**: whenever the stream emits `InFinalizedBlock{br}` while
processing an arrival, the ref `br` is the pinned ref of a block that
appeared among the `finalized_block_hashes` of a `Finalized` follow
event already processed (so never before the block appeared on the
feed), and its hash is the one named by the node's `Finalized`
transaction status. -/
theorem c1_inFinalizedBlock_after_seen (hashOf : R → H)
    (pre : List (TxIn H R)) (i : TxIn H R) (br : BackendBlockRef H R)
    (hmem : Except.ok (TransactionStatus.inFinalizedBlock br)
      ∈ (txStep hashOf (txRunState hashOf initTxState pre) i).2) :
    ∃ r, br = BackendBlockRef.pinned (hashOf r) r ∧
      (∃ f, TxIn.follow (H := H) (.finalizedEv f) ∈ pre ++ [i] ∧
        r ∈ f.finalized_block_hashes) ∧
      (∃ b, TxIn.status (R := R) (.finalizedTx b) ∈ pre ++ [i] ∧
        b.hash = hashOf r) := by
  have hinv := txRun_inv hashOf pre [] initTxState
    (fun k m r hm => absurd hm (List.not_mem_nil _))
    (fun h hh => nomatch hh)
  rw [List.nil_append] at hinv
  obtain ⟨hs, hf⟩ := hinv
  set st := txRunState hashOf initTxState pre with hst
  by_cases hd : st.done = true
  · rw [txStep_done hashOf st i hd] at hmem
    exact absurd hmem (List.not_mem_nil _)
  · have hd2 : st.done = false := by simpa using hd
    cases i with
    | follow ev =>
        have hstep : txStep hashOf st (.follow ev)
            = txCheckFinalized hashOf (txSeenBlocks hashOf st ev) := by
          simp [txStep, hd2]
        rw [hstep] at hmem
        have hs2 := txSeenBlocks_inv hashOf pre st ev hs
        have hf2 : FinalizedHashInv (pre ++ [TxIn.follow ev])
            (txSeenBlocks hashOf st ev).finalized_hash := by
          rw [(txSeenBlocks_fields hashOf st ev).1]
          exact finalizedHashInv_mono hf
        exact txCheckFinalized_emit hashOf _ _ br hs2 hf2 hmem
    | status s =>
        cases hfh : st.finalized_hash with
        | some h0 =>
            have hstep : txStep hashOf st (.status s) = (st, []) := by
              simp [txStep, hd2, hfh]
            rw [hstep] at hmem
            exact absurd hmem (List.not_mem_nil _)
        | none =>
            cases s with
            | finalizedTx b =>
                have hstep : txStep hashOf st (.status (.finalizedTx b))
                    = txCheckFinalized hashOf
                        { st with finalized_hash := some b.hash } := by
                  simp [txStep, hd2, hfh]
                rw [hstep] at hmem
                have hs2 : SeenBlocksInv hashOf
                    (pre ++ [TxIn.status (.finalizedTx b)])
                    ({ st with finalized_hash := some b.hash } :
                      TxState H R).seen_blocks :=
                  seenBlocksInv_mono hashOf hs
                have hf2 : FinalizedHashInv
                    (pre ++ [TxIn.status (.finalizedTx b)])
                    ({ st with finalized_hash := some b.hash } :
                      TxState H R).finalized_hash := by
                  intro h hh
                  obtain rfl : b.hash = h := Option.some.inj hh
                  exact ⟨b, List.mem_append_right _ (List.mem_singleton_self _),
                    rfl⟩
                exact txCheckFinalized_emit hashOf _ _ br hs2 hf2 hmem
            | bestChainBlockIncluded ob =>
                cases ob <;> simp [txStep, hd2, hfh] at hmem
            | validated => simp [txStep, hd2, hfh] at hmem
            | broadcasted n => simp [txStep, hd2, hfh] at hmem
            | dropped isBr e => simp [txStep, hd2, hfh] at hmem
            | errorStatus e => simp [txStep, hd2, hfh] at hmem
            | invalidStatus e => simp [txStep, hd2, hfh] at hmem
    | statusErr e =>
        cases hfh : st.finalized_hash <;> simp [txStep, hd2, hfh] at hmem
    | txEnd =>
        cases hfh : st.finalized_hash <;> simp [txStep, hd2, hfh] at hmem

/-- Witness for C1 at a concrete input: finalized status names block 5,
then the follow feed finalizes block 5 and the emission happens there. -/
theorem c1_inFinalizedBlock_after_seen_witness :
    ∃ r : Nat, BackendBlockRef.pinned (5 : Nat) (5 : Nat)
        = BackendBlockRef.pinned r r ∧
      (∃ f, TxIn.follow (H := Nat) (.finalizedEv f)
          ∈ [TxIn.status (.finalizedTx ⟨5⟩)]
            ++ [TxIn.follow (.finalizedEv ⟨[5], []⟩)] ∧
        r ∈ f.finalized_block_hashes) ∧
      (∃ b, TxIn.status (R := Nat) (.finalizedTx b)
          ∈ [TxIn.status (.finalizedTx ⟨5⟩)]
            ++ [TxIn.follow (.finalizedEv ⟨[5], []⟩)] ∧
        b.hash = r) :=
  c1_inFinalizedBlock_after_seen (fun h : Nat => h)
    [TxIn.status (.finalizedTx ⟨5⟩)] (.follow (.finalizedEv ⟨[5], []⟩))
    (BackendBlockRef.pinned 5 5) (by decide)

/-- Lookup after a fold of insertions succeeds for the inserted keys or
keys already present. -/
theorem alistLookup_foldl_insert_isSome {A R2 : Type} (g : R2 → H)
    (val : R2 → A) (hs : List R2) (m0 : List (H × A)) (h : H) :
    (alistLookup (hs.foldl (fun m r => alistInsert m (g r) (val r)) m0)
        h).isSome
      ↔ (∃ r ∈ hs, g r = h) ∨ (alistLookup m0 h).isSome := by
  induction hs generalizing m0 with
  | nil => simp
  | cons r t ih =>
      have hfold : (r :: t).foldl (fun m x => alistInsert m (g x) (val x)) m0
          = t.foldl (fun m x => alistInsert m (g x) (val x))
              (alistInsert m0 (g r) (val r)) := rfl
      rw [hfold, ih]
      constructor
      · rintro (⟨x, hx, hgx⟩ | hl)
        · exact Or.inl ⟨x, List.mem_cons_of_mem _ hx, hgx⟩
        · rw [alistLookup_insert] at hl
          by_cases hgr : g r = h
          · exact Or.inl ⟨r, List.mem_cons_self _ _, hgr⟩
          · rw [if_neg hgr] at hl
            exact Or.inr hl
      · rintro (⟨x, hx, hgx⟩ | hl)
        · rcases List.mem_cons.mp hx with rfl | hx2
          · refine Or.inr ?_
            rw [alistLookup_insert, if_pos hgx]
            rfl
          · exact Or.inl ⟨x, hx2, hgx⟩
        · refine Or.inr ?_
          rw [alistLookup_insert]
          by_cases hgr : g r = h
          · rw [if_pos hgr]; rfl
          · rw [if_neg hgr]; exact hl

/-- While no `Finalized` transaction status has been consumed (and the
stream has not ended), a hash is in `seen_blocks` exactly when some
already-processed follow event named it via `NewBlock` or `Finalized`. -/
theorem txRun_seen_iff (hashOf : R → H) :
    ∀ (ins : List (TxIn H R)) (st : TxState H R),
      (txRunState hashOf st ins).finalized_hash = none →
      (txRunState hashOf st ins).done = false →
      ∀ h, (alistLookup (txRunState hashOf st ins).seen_blocks h).isSome
        ↔ (alistLookup st.seen_blocks h).isSome ∨ seenOnFeed hashOf ins h := by
  intro ins
  induction ins with
  | nil =>
      intro st _ _ h
      simp only [seenOnFeed, List.not_mem_nil, false_and, exists_const,
        exists_false, or_false]
      rfl
  | cons i rest ih =>
      intro st hfn hdn h
      have hunf : txRunState hashOf st (i :: rest)
          = txRunState hashOf (txStep hashOf st i).1 rest := rfl
      rw [hunf] at hfn hdn ⊢
      have hfn1 : st.finalized_hash = none := by
        cases hfs : st.finalized_hash with
        | none => rfl
        | some h0 =>
            have hmono := txRunState_fh_mono hashOf rest _ h0
              (txStep_fh_mono hashOf st i h0 hfs)
            rw [hmono] at hfn
            exact absurd hfn (by simp)
      have hdn1 : st.done = false := by
        cases hds : st.done with
        | false => rfl
        | true =>
            have hmono := txRunState_done_mono hashOf rest _
              (txStep_done_mono hashOf st i hds)
            rw [hdn] at hmono
            exact absurd hmono (by simp)
      have hfn2 : (txStep hashOf st i).1.finalized_hash = none := by
        cases hfs : (txStep hashOf st i).1.finalized_hash with
        | none => rfl
        | some h0 =>
            have hmono := txRunState_fh_mono hashOf rest _ h0 hfs
            rw [hmono] at hfn
            exact absurd hfn (by simp)
      rw [ih (txStep hashOf st i).1 hfn hdn h]
      have hseen : seenOnFeed hashOf (i :: rest) h
          ↔ seenEventMatch hashOf i h ∨ seenOnFeed hashOf rest h := by
        simp [seenOnFeed, List.mem_cons, or_and_right, exists_or,
          exists_eq_left]
      rw [hseen]
      have hstep : (alistLookup (txStep hashOf st i).1.seen_blocks h).isSome
          ↔ seenEventMatch hashOf i h
            ∨ (alistLookup st.seen_blocks h).isSome := by
        cases i with
        | follow ev =>
            have hstepEq : txStep hashOf st (.follow ev)
                = txCheckFinalized hashOf (txSeenBlocks hashOf st ev) := by
              simp [txStep, hdn1]
            have hfh1 : (txSeenBlocks hashOf st ev).finalized_hash = none := by
              rw [(txSeenBlocks_fields hashOf st ev).1]; exact hfn1
            have hchk : txCheckFinalized hashOf (txSeenBlocks hashOf st ev)
                = (txSeenBlocks hashOf st ev, []) := by
              simp [txCheckFinalized, hfh1]
            rw [hstepEq, hchk]
            cases ev with
            | newBlock nb =>
                have hsb : (txSeenBlocks hashOf st (.newBlock nb)).seen_blocks
                    = alistInsert st.seen_blocks (hashOf nb.block_hash)
                        (SeenBlockMarker.new, nb.block_hash) := by
                  simp [txSeenBlocks, hfn1]
                rw [hsb, alistLookup_insert]
                by_cases hbh : hashOf nb.block_hash = h
                · simp [hbh, seenEventMatch]
                · simp [hbh, seenEventMatch]
            | finalizedEv f =>
                have hsb : (txSeenBlocks hashOf st (.finalizedEv f)).seen_blocks
                    = f.finalized_block_hashes.foldl
                        (fun m r => alistInsert m (hashOf r)
                          (SeenBlockMarker.finalizedMarker, r))
                        st.seen_blocks := rfl
                rw [hsb, alistLookup_foldl_insert_isSome]
                simp [seenEventMatch]
            | initEv e => simp [txSeenBlocks, seenEventMatch]
            | bestBlockChanged e => simp [txSeenBlocks, seenEventMatch]
            | operationBodyDone e => simp [txSeenBlocks, seenEventMatch]
            | operationCallDone e => simp [txSeenBlocks, seenEventMatch]
            | operationStorageItems => simp [txSeenBlocks, seenEventMatch]
            | operationError e => simp [txSeenBlocks, seenEventMatch]
            | stop => simp [txSeenBlocks, seenEventMatch]
        | status s =>
            by_cases hb : ∃ b, s = RpcTransactionStatus.finalizedTx b
            · exfalso
              obtain ⟨b, rfl⟩ := hb
              have hset : (txStep hashOf st
                    (.status (.finalizedTx b))).1.finalized_hash
                  = some b.hash := by
                have hstepEq : txStep hashOf st (.status (.finalizedTx b))
                    = txCheckFinalized hashOf
                        { st with finalized_hash := some b.hash } := by
                  simp [txStep, hdn1, hfn1]
                rw [hstepEq, txCheckFinalized_fh]
              rw [hfn2] at hset
              exact nomatch hset
            · rw [txStep_status_state hashOf st s hdn1 hfn1
                (fun b hb2 => hb ⟨b, hb2⟩)]
              simp [seenEventMatch]
        | statusErr e =>
            have hstate : (txStep hashOf st (.statusErr e)).1 = st := by
              simp [txStep, hdn1, hfn1]
            rw [hstate]
            simp [seenEventMatch]
        | txEnd =>
            exfalso
            have hdset : (txStep hashOf st .txEnd).1.done = true := by
              simp [txStep, hdn1, hfn1]
            have hmono := txRunState_done_mono hashOf rest _ hdset
            rw [hdn] at hmono
            exact absurd hmono (by simp)
      rw [hstep]
      tauto

/-- **C8**: a `BestChainBlockIncluded{Some(block)}` consumed while
watching (no finalized hash yet, stream not ended) is passed through
immediately as a single `InBestBlock` with unchanged state; the ref is
the pinned `seen_blocks` entry when the hash was already seen on the
follow feed via `NewBlock` or `Finalized`, and an un-pinned ref built
from the bare hash when it was not. -/
theorem c8_best_block_ref (hashOf : R → H) (pre : List (TxIn H R))
    (b : TxBlockDetails H)
    (hd : (txRunState hashOf initTxState pre).done = false)
    (hfn : (txRunState hashOf initTxState pre).finalized_hash = none) :
    txStep hashOf (txRunState hashOf initTxState pre)
        (.status (.bestChainBlockIncluded (some b)))
      = (txRunState hashOf initTxState pre,
         [Except.ok (TransactionStatus.inBestBlock
            (bestBlockRef hashOf (txRunState hashOf initTxState pre)
              b.hash))]) ∧
    (seenOnFeed hashOf pre b.hash →
      ∃ m r, alistLookup (txRunState hashOf initTxState pre).seen_blocks
          b.hash = some (m, r) ∧
        bestBlockRef hashOf (txRunState hashOf initTxState pre) b.hash
          = BackendBlockRef.pinned (hashOf r) r) ∧
    (¬seenOnFeed hashOf pre b.hash →
      bestBlockRef hashOf (txRunState hashOf initTxState pre) b.hash
        = BackendBlockRef.fromHash b.hash) := by
  have hiff := txRun_seen_iff hashOf pre initTxState hfn hd b.hash
  simp only [initTxState, alistLookup, Option.isSome_none,
    Bool.false_eq_true, false_or] at hiff
  refine ⟨by simp [txStep, hd, hfn], fun hseen => ?_, fun hns => ?_⟩
  · have hlk : (alistLookup (txRunState hashOf initTxState pre).seen_blocks
        b.hash).isSome := hiff.mpr hseen
    obtain ⟨p, hp⟩ := Option.isSome_iff_exists.mp hlk
    obtain ⟨m, r⟩ := p
    exact ⟨m, r, hp, by simp [bestBlockRef, hp]⟩
  · have hlk : ¬(alistLookup (txRunState hashOf initTxState pre).seen_blocks
        b.hash).isSome := fun hs => hns (hiff.mp hs)
    have hnone : alistLookup (txRunState hashOf initTxState pre).seen_blocks
        b.hash = none := Option.not_isSome_iff_eq_none.mp hlk
    simp [bestBlockRef, hnone]

/-- Witness for C8 at a concrete input: block 7 was seen as a `NewBlock`
before being reported as the best-chain block. -/
theorem c8_best_block_ref_witness :
    ∃ m r, alistLookup
        (txRunState (fun h : Nat => h) initTxState
          [TxIn.follow (.newBlock ⟨7, 6, none⟩)]).seen_blocks 7
        = some (m, r) ∧
      bestBlockRef (fun h : Nat => h)
        (txRunState (fun h : Nat => h) initTxState
          [TxIn.follow (.newBlock ⟨7, 6, none⟩)]) 7
        = BackendBlockRef.pinned r r :=
  (c8_best_block_ref (fun h : Nat => h)
      [TxIn.follow (.newBlock ⟨7, 6, none⟩)] ⟨7⟩ rfl rfl).2.1
    ⟨TxIn.follow (.newBlock ⟨7, 6, none⟩), List.mem_singleton_self _, rfl⟩

end SubmitTxLemmas

end ChainHead

